import Mathlib

/-!
Verification of the two-stage crypto correlation pipeline:
`src/build_monthly_correlations.py` (Correlation Builder) and
`src/build_network_metrics.py` (Network Metrics Builder).

Dates are triples (year, month, day); a month is represented, as in the
source, by the first-of-month date.  Daily log-returns are rationals.

A Pearson correlation value is represented exactly, without square roots,
by the pair `(num, denomSq)` where the real correlation over `n` paired
observations is `num / Real.sqrt denomSq` with
`num = n·Σxy − Σx·Σy` and `denomSq = (n·Σxx − (Σx)²)·(n·Σyy − (Σy)²)`.
Two equal representations denote equal real correlations, and the
correlation is NaN in pandas exactly when `denomSq = 0` (fewer than two
overlapping days, or a zero-variance series on the overlap), which the
embedding renders as `none`.
-/

namespace CryptoSql

/-- A calendar date (year, month, day). -/
structure Date where
  y : Nat
  m : Nat
  d : Nat
deriving DecidableEq

/-- Truncation of a date to the first day of its calendar month, as in
`day.dt.to_period("M").dt.to_timestamp()`. -/
def monthOf (t : Date) : Date := ⟨t.y, t.m, 1⟩

/-- Chronological (lexicographic) order on dates, the order pandas uses
for datetime keys in `groupby` and `sort_values`. -/
def dateLe (a b : Date) : Bool :=
  decide (a.y < b.y ∨ (a.y = b.y ∧ (a.m < b.m ∨ (a.m = b.m ∧ a.d ≤ b.d))))

/-- Insert an element into a list so that, if the list was sorted by `le`,
the result still is. -/
def insertLe {α : Type} (le : α → α → Bool) (x : α) : List α → List α
  | [] => [x]
  | y :: ys => if le x y then x :: y :: ys else y :: insertLe le x ys

/-- Insertion sort by a boolean comparison. -/
def sortLe {α : Type} (le : α → α → Bool) : List α → List α
  | [] => []
  | x :: xs => insertLe le x (sortLe le xs)

/-! ## Stage 1: Correlation Builder (`build_monthly_correlations.py`) -/

/-- One row of the builder's input: `(asset_address, day, log_return)`
with the `log_return IS NOT NULL` filter already applied by the SQL query. -/
structure Obs where
  asset : String
  day : Date
  logReturn : ℚ
deriving DecidableEq

/-- One row of `monthly_correlations`: the table schema allows a NULL
`corr` (`corr DOUBLE PRECISION` with no NOT NULL constraint), hence the
`Option` type. -/
structure CEdge where
  month : Date
  asset_i : String
  asset_j : String
  corr : Option (ℚ × ℚ)
deriving DecidableEq

/-- The input rows may not have a unique `(asset, day)` key twice:
`DataFrame.pivot` raises on duplicate index/column pairs, which the spec
classes as a precondition violation.  Theorems about stage 1 assume this. -/
def WellFormedObs (obs : List Obs) : Prop :=
  (obs.map (fun r => (r.asset, r.day))).Nodup

instance (obs : List Obs) : Decidable (WellFormedObs obs) := by
  unfold WellFormedObs; infer_instance

/-- Index of the month's pivot table: the distinct days appearing in the
month's rows. -/
def daysOf (rows : List Obs) : List Date := (rows.map (fun r => r.day)).dedup

/-- Cell `(t, a)` of the pivot table: the log-return of asset `a` on day
`t`, absent when no row provides it. -/
def valueAt (rows : List Obs) (a : String) (t : Date) : Option ℚ :=
  (rows.find? (fun r => decide (r.asset = a) && decide (r.day = t))).map
    (fun r => r.logReturn)

/-- Columns of the pivot table: the distinct assets of the month. -/
def assetsOf (rows : List Obs) : List String := (rows.map (fun r => r.asset)).dedup

/-- Column count `pivot.count()`: the number of days of the month on
which the asset has a non-absent value. -/
def validCount (rows : List Obs) (a : String) : Nat :=
  ((daysOf rows).filter (fun t => (valueAt rows a t).isSome)).length

/-- The surviving columns `keep_cols`: the assets of the month with at
least `minDays` valid daily observations. -/
def keepFor (minDays : Nat) (rows : List Obs) : List String :=
  (assetsOf rows).filter (fun a => decide (minDays ≤ validCount rows a))

/-- Pairwise-complete observations for assets `i` and `j`: the pairs of
values on days where both are present (pandas `corr` semantics). -/
def overlapSeries (rows : List Obs) (i j : String) : List (ℚ × ℚ) :=
  (daysOf rows).filterMap (fun t =>
    match valueAt rows i t, valueAt rows j t with
    | some x, some y => some (x, y)
    | _, _ => none)

/-- Exact representation of the Pearson correlation of a paired series:
`none` exactly when pandas produces NaN (a zero variance term, which
covers fewer than two overlapping observations), otherwise the pair
`(num, denomSq)` with the real value `num / Real.sqrt denomSq`. -/
def corrRep (ps : List (ℚ × ℚ)) : Option (ℚ × ℚ) :=
  let n : ℚ := ps.length
  let sx := (ps.map (fun p => p.1)).sum
  let sy := (ps.map (fun p => p.2)).sum
  let sxx := (ps.map (fun p => p.1 * p.1)).sum
  let syy := (ps.map (fun p => p.2 * p.2)).sum
  let sxy := (ps.map (fun p => p.1 * p.2)).sum
  if n * sxx - sx * sx = 0 ∨ n * syy - sy * sy = 0 then none
  else some (n * sxy - sx * sy, (n * sxx - sx * sx) * (n * syy - sy * sy))

/-- Entry `(i, j)` of `corr_matrix = pivot.corr()`. -/
def corrEntry (rows : List Obs) (i j : String) : Option (ℚ × ℚ) :=
  corrRep (overlapSeries rows i j)

/-- The flattening `corr_matrix.stack()`: all pairs of kept assets whose
matrix entry is present; `stack` drops NaN entries (`dropna=True` is the
pandas default). -/
def stackPairs (rows : List Obs) (keep : List String) :
    List (String × String × (ℚ × ℚ)) :=
  (keep.product keep).filterMap
    (fun p => (corrEntry rows p.1 p.2).map (fun c => (p.1, p.2, c)))

/-- The edges the Correlation Builder emits for one month: filter assets by
`min_days_per_asset`, skip the month when fewer than 2 survive, correlate,
stack (dropping NaN), remove self-correlations, attach the month. -/
def monthEdges (minDays : Nat) (m : Date) (rows : List Obs) : List CEdge :=
  let keep := keepFor minDays rows
  if keep.length < 2 then []
  else
    ((stackPairs rows keep).filter (fun t => decide (t.1 ≠ t.2.1))).map
      (fun t => { month := m, asset_i := t.1, asset_j := t.2.1, corr := some t.2.2 })

/-- The slice of the input belonging to one calendar month. -/
def obsInMonth (m : Date) (obs : List Obs) : List Obs :=
  obs.filter (fun r => decide (monthOf r.day = m))

/-- The distinct months of the input, in the ascending order `groupby`
iterates them. -/
def obsMonths (obs : List Obs) : List Date :=
  sortLe dateLe ((obs.map (fun r => monthOf r.day)).dedup)

/-- The full output of the Correlation Builder: concatenation of the
per-month edge lists over all months of the input. -/
def monthlyCorr (minDays : Nat) (obs : List Obs) : List CEdge :=
  (obsMonths obs).flatMap (fun m => monthEdges minDays m (obsInMonth m obs))

/-! ## Stage 2: Network Metrics Builder (`build_network_metrics.py`) -/

/-- One row of the `monthly_correlations` table as read back by stage 2. -/
structure NEdge where
  month : Date
  asset_i : String
  asset_j : String
  corr : Option ℚ
deriving DecidableEq

/-- An undirected `networkx.Graph`: nodes in insertion order, each
undirected edge stored once in its first insertion orientation. -/
structure Graph where
  nodes : List String
  edges : List (String × String)
deriving DecidableEq

/-- Whether the graph has the undirected edge `{a, b}`. -/
def hasEdgeB (g : Graph) (a b : String) : Bool :=
  g.edges.any (fun e =>
    (decide (e.1 = a) && decide (e.2 = b)) || (decide (e.1 = b) && decide (e.2 = a)))

/-- Add a node if not already present (`networkx` keeps insertion order). -/
def addNode (g : Graph) (v : String) : Graph :=
  if v ∈ g.nodes then g else { g with nodes := g.nodes ++ [v] }

/-- The operation `G.add_edge(u, v)`: add missing endpoints, then the edge
unless the undirected edge already exists (re-adding only updates
attributes). -/
def addEdge (g : Graph) (u v : String) : Graph :=
  let g2 := addNode (addNode g u) v
  if hasEdgeB g2 u v then g2 else { g2 with edges := g2.edges ++ [(u, v)] }

/-- The graph grown by `G.add_edge(row["asset_i"], row["asset_j"])` over
the month's surviving edge rows. -/
def buildGraph (rows : List NEdge) : Graph :=
  rows.foldl (fun g e => addEdge g e.asset_i e.asset_j) ⟨[], []⟩

/-- Degree of a node: incident edge ends (a self-loop counts twice, as in
`networkx`). -/
def degree (g : Graph) (v : String) : Nat :=
  (g.edges.map (fun e =>
    (if e.1 = v then 1 else 0) + (if e.2 = v then 1 else 0))).sum

/-- The function `nx.density`: `0` when there are no edges or at most one
node, otherwise `2·m / (n·(n−1))`. -/
def densityFn (g : Graph) : ℚ :=
  if g.edges.length = 0 ∨ g.nodes.length ≤ 1 then 0
  else 2 * (g.edges.length : ℚ) /
    ((g.nodes.length : ℚ) * ((g.nodes.length : ℚ) - 1))

/-- The mean degree `degrees.mean()` guarded by `if len(degrees) > 0 else 0.0`. -/
def avgDegree (g : Graph) : ℚ :=
  if g.nodes.length = 0 then 0
  else ((g.nodes.map (fun v => (degree g v : ℚ))).sum) / (g.nodes.length : ℚ)

/-- The maximum degree `degrees.max()` guarded by `if len(degrees) > 0 else 0`. -/
def maxDegree (g : Graph) : Nat := (g.nodes.map (degree g)).foldr max 0

/-- The distinct neighbours of `v`, excluding `v` itself (the set
`set(G[v]) - {v}` used by `nx.clustering`). -/
def nbrs (g : Graph) (v : String) : List String :=
  g.nodes.filter (fun u => decide (u ≠ v) && hasEdgeB g u v)

/-- Twice the triangle count through `v`: the ordered pairs of distinct
neighbours of `v` that are themselves adjacent. -/
def linkedNbr (g : Graph) (v : String) : Nat :=
  ((nbrs g v).product (nbrs g v)).countP
    (fun p => decide (p.1 ≠ p.2) && hasEdgeB g p.1 p.2)

/-- The coefficient `nx.clustering(G, weight=None)` for one node:
`2T / (d·(d−1))`, and `0` for degree below 2. -/
def clusteringCoef (g : Graph) (v : String) : ℚ :=
  let d := (nbrs g v).length
  if d < 2 then 0 else (linkedNbr g v : ℚ) / ((d : ℚ) * ((d : ℚ) - 1))

/-- The mean `np.mean(list(clustering_dict.values()))` guarded by
`if clustering_dict else 0.0`. -/
def avgClustering (g : Graph) : ℚ :=
  if g.nodes.length = 0 then 0
  else ((g.nodes.map (clusteringCoef g)).sum) / (g.nodes.length : ℚ)

/-- One breadth-first expansion: a set of nodes together with every node
adjacent to one of them. -/
def stepReach (g : Graph) (S : List String) : List String :=
  (S ++ S.flatMap (fun v => g.nodes.filter (fun u => hasEdgeB g v u))).dedup

/-- Iterated breadth-first expansion. -/
def closeReach (g : Graph) : Nat → List String → List String
  | 0, S => S
  | n + 1, S => closeReach g n (stepReach g S)

/-- The connected component of `v`: `|nodes|` expansions starting from
`{v}` reach the fixpoint. -/
def compo (g : Graph) (v : String) : List String :=
  closeReach g g.nodes.length [v]

/-- The value `len(max(nx.connected_components(G), key=len))`: the size of
the largest connected component. -/
def lccSize (g : Graph) : Nat :=
  (g.nodes.map (fun v => (compo g v).length)).foldr max 0

/-- One output row of the Network Metrics Builder
(`temporal_network_metrics`). -/
structure MetricsRow where
  month : Date
  n_assets : Nat
  n_edges : Nat
  density : ℚ
  avg_degree : ℚ
  max_degree : Nat
  avg_clustering : ℚ
  lcc_size : Nat
deriving DecidableEq

/-- The filter `np.abs(df_month["corr"]) >= CORR_THRESHOLD`: a row with an
absent correlation never passes (NaN compares false in numpy as well). -/
def corrKeptB (theta : ℚ) (e : NEdge) : Bool :=
  match e.corr with
  | some c => decide (theta ≤ |c|)
  | none => false

/-- The month's rows surviving both the SQL `corr IS NOT NULL` filter and
the absolute-correlation threshold. -/
def survFor (theta : ℚ) (m : Date) (rows : List NEdge) : List NEdge :=
  ((rows.filter (fun e => e.corr.isSome)).filter
    (fun e => decide (e.month = m))).filter (corrKeptB theta)

/-- The graph stage 2 builds for one month. -/
def graphFor (theta : ℚ) (m : Date) (rows : List NEdge) : Graph :=
  buildGraph (survFor theta m rows)

/-- The metrics row for one month: `none` when the month is skipped
(`if df_edges.empty: continue`, `if n_nodes == 0: continue`). -/
def metricsFor (theta : ℚ) (m : Date) (rows : List NEdge) : Option MetricsRow :=
  let es := survFor theta m rows
  if es = [] then none
  else
    let g := graphFor theta m rows
    if g.nodes.length = 0 then none
    else some ⟨m, g.nodes.length, g.edges.length, densityFn g, avgDegree g,
                maxDegree g, avgClustering g, lccSize g⟩

/-- The distinct months of the (corr-present) input rows, ascending,
as `groupby("month")` iterates them. -/
def rowMonths (rows : List NEdge) : List Date :=
  sortLe dateLe (((rows.filter (fun e => e.corr.isSome)).map (fun e => e.month)).dedup)

/-- The full output of the Network Metrics Builder: the per-month rows,
finally passed through `sort_values("month")`. -/
def networkMetrics (theta : ℚ) (rows : List NEdge) : List MetricsRow :=
  sortLe (fun a b => dateLe a.month b.month)
    ((rowMonths rows).filterMap (fun m => metricsFor theta m rows))

/-- The spec's description of the clustering coefficient: the fraction of
pairs of distinct neighbours of `v` that are themselves connected, `0`
when the degree is below 2. -/
def clusteringSpec (g : Graph) (v : String) : ℚ :=
  let nb := nbrs g v
  let allPairs := (nb.product nb).filter (fun p => decide (p.1 ≠ p.2))
  if nb.length < 2 then 0
  else ((allPairs.filter (fun p => hasEdgeB g p.1 p.2)).length : ℚ) /
    (allPairs.length : ℚ)

/-- Adjacency as a proposition. -/
def adjacent (g : Graph) (a b : String) : Prop := hasEdgeB g a b = true

/-- Reachability: the reflexive-transitive closure of adjacency. -/
def Reach (g : Graph) (a b : String) : Prop :=
  Relation.ReflTransGen (adjacent g) a b

/-- The spec's notion of a connected graph: every pair of nodes is
mutually reachable. -/
def ConnectedG (g : Graph) : Prop :=
  ∀ u ∈ g.nodes, ∀ w ∈ g.nodes, Reach g u w

/-! ## Generic lemmas: insertion sort, date order, counting -/

theorem perm_insertLe {α : Type} (le : α → α → Bool) (x : α) :
    ∀ l : List α, (insertLe le x l).Perm (x :: l)
  | [] => by simp [insertLe]
  | y :: ys => by
    by_cases h : le x y
    · simp [insertLe, h]
    · simp only [insertLe, h, if_false, Bool.false_eq_true]
      exact ((perm_insertLe le x ys).cons y).trans (List.Perm.swap x y ys)

theorem perm_sortLe {α : Type} (le : α → α → Bool) :
    ∀ l : List α, (sortLe le l).Perm l
  | [] => by simp [sortLe]
  | x :: xs =>
    (perm_insertLe le x (sortLe le xs)).trans ((perm_sortLe le xs).cons x)

theorem pairwise_insertLe {α : Type} {le : α → α → Bool}
    (tot : ∀ a b, le a b = true ∨ le b a = true)
    (tr : ∀ a b c, le a b = true → le b c = true → le a c = true)
    (x : α) : ∀ {l : List α}, l.Pairwise (fun a b => le a b = true) →
    (insertLe le x l).Pairwise (fun a b => le a b = true) := by
  intro l h
  induction l with
  | nil => simp [insertLe]
  | cons y ys ih =>
    rw [List.pairwise_cons] at h
    obtain ⟨hy, hys⟩ := h
    by_cases hxy : le x y
    · simp only [insertLe, hxy, if_true]
      refine List.Pairwise.cons ?_ (List.Pairwise.cons hy hys)
      intro a ha
      rcases List.mem_cons.mp ha with rfl | ha
      · exact hxy
      · exact tr x y a hxy (hy a ha)
    · simp only [insertLe, hxy, if_false, Bool.false_eq_true]
      refine List.Pairwise.cons ?_ (ih hys)
      intro a ha
      have ha2 : a = x ∨ a ∈ ys :=
        List.mem_cons.mp ((perm_insertLe le x ys).mem_iff.mp ha)
      rcases ha2 with rfl | ha2
      · rcases tot a y with h1 | h1
        · exact absurd h1 hxy
        · exact h1
      · exact hy a ha2

theorem pairwise_sortLe {α : Type} {le : α → α → Bool}
    (tot : ∀ a b, le a b = true ∨ le b a = true)
    (tr : ∀ a b c, le a b = true → le b c = true → le a c = true) :
    ∀ l : List α, (sortLe le l).Pairwise (fun a b => le a b = true)
  | [] => by simp [sortLe]
  | x :: xs => pairwise_insertLe tot tr x (pairwise_sortLe tot tr xs)

theorem dateLe_total (a b : Date) : dateLe a b = true ∨ dateLe b a = true := by
  simp only [dateLe, decide_eq_true_eq]
  omega

theorem dateLe_trans (a b c : Date) (h1 : dateLe a b = true)
    (h2 : dateLe b c = true) : dateLe a c = true := by
  simp only [dateLe, decide_eq_true_eq] at h1 h2 ⊢
  omega

theorem length_filter_filterMap {α β : Type} (f : α → Option β) (q : β → Bool) :
    ∀ l : List α, ((l.filterMap f).filter q).length =
      l.countP (fun a => ((f a).map q).getD false)
  | [] => rfl
  | x :: xs => by
    rw [List.filterMap_cons, List.countP_cons]
    cases hfx : f x with
    | none => simp [length_filter_filterMap f q xs]
    | some b =>
      by_cases hq : q b
      · simp [List.filter_cons, hq, length_filter_filterMap f q xs]
      · simp [List.filter_cons, hq, length_filter_filterMap f q xs]

theorem countP_diag_product {α : Type} [DecidableEq α] {L : List α}
    (hL : L.Nodup) : ∀ {l : List α}, l ⊆ L →
    (l.product L).countP (fun p => decide (p.1 = p.2)) = l.length := by
  intro l
  induction l with
  | nil => intro _; rfl
  | cons x xs ih =>
    intro hsub
    have hx : x ∈ L := hsub (List.mem_cons_self x xs)
    have hxs : xs ⊆ L := fun a ha => hsub (List.mem_cons_of_mem x ha)
    have hprod : ((x :: xs).product L) = L.map (fun b => (x, b)) ++ xs.product L := by
      simp [List.product, List.flatMap_cons]
    rw [hprod, List.countP_append, List.countP_map, ih hxs]
    have hcount : L.countP ((fun p : α × α => decide (p.1 = p.2)) ∘ (fun b => (x, b)))
        = L.count x := by
      rw [List.count]
      refine List.countP_congr ?_
      intro a _
      simp only [Function.comp_apply, decide_eq_true_eq, beq_iff_eq]
      exact eq_comm
    rw [hcount, List.count_eq_one_of_mem hL hx]
    simp [Nat.add_comm]

theorem countP_offdiag_product {α : Type} [DecidableEq α] {L : List α}
    (hL : L.Nodup) :
    (L.product L).countP (fun p => decide (p.1 ≠ p.2)) =
      L.length * L.length - L.length := by
  have hlen := List.length_eq_countP_add_countP
    (fun p : α × α => decide (p.1 = p.2)) (L.product L)
  have hne : (L.product L).countP
      (fun p : α × α => decide ¬(decide (p.1 = p.2) = true)) =
      (L.product L).countP (fun p : α × α => decide (p.1 ≠ p.2)) := by
    refine List.countP_congr ?_
    intro p _
    simp
  rw [hne] at hlen
  have hdiag := countP_diag_product hL (fun a ha => ha)
  have hplen : (L.product L).length = L.length * L.length := by
    simpa using List.length_product L L
  omega

/-! ## Stage 1 lemmas -/

theorem keepFor_nodup (minDays : Nat) (rows : List Obs) :
    (keepFor minDays rows).Nodup :=
  List.Nodup.filter _ (List.nodup_dedup _)

theorem mem_keepFor {minDays : Nat} {rows : List Obs} {a : String} :
    a ∈ keepFor minDays rows ↔ a ∈ assetsOf rows ∧ minDays ≤ validCount rows a := by
  simp [keepFor, List.mem_filter]

theorem monthEdges_eq (minDays : Nat) (m : Date) (rows : List Obs) :
    monthEdges minDays m rows =
      if (keepFor minDays rows).length < 2 then []
      else ((stackPairs rows (keepFor minDays rows)).filter
          (fun t => decide (t.1 ≠ t.2.1))).map
        (fun t => ⟨m, t.1, t.2.1, some t.2.2⟩) := rfl

theorem mem_monthEdges {minDays : Nat} {m : Date} {rows : List Obs} {e : CEdge} :
    e ∈ monthEdges minDays m rows ↔
      2 ≤ (keepFor minDays rows).length ∧
      ∃ i j c, i ∈ keepFor minDays rows ∧ j ∈ keepFor minDays rows ∧ i ≠ j ∧
        corrEntry rows i j = some c ∧ e = ⟨m, i, j, some c⟩ := by
  rw [monthEdges_eq]
  by_cases hk : (keepFor minDays rows).length < 2
  · simp only [if_pos hk, List.not_mem_nil, false_iff, not_and]
    intro h2
    omega
  · rw [if_neg hk]
    constructor
    · intro he
      obtain ⟨t, ht, rfl⟩ := List.mem_map.mp he
      obtain ⟨ht1, ht2⟩ := List.mem_filter.mp ht
      obtain ⟨⟨i, j⟩, hp, hpt⟩ := List.mem_filterMap.mp ht1
      obtain ⟨hi, hj⟩ := List.pair_mem_product.mp hp
      obtain ⟨c, hc, rfl⟩ := Option.map_eq_some'.mp hpt
      refine ⟨by omega, i, j, c, hi, hj, ?_, hc, rfl⟩
      exact of_decide_eq_true ht2
    · rintro ⟨h2, i, j, c, hi, hj, hij, hc, rfl⟩
      refine List.mem_map.mpr ⟨(i, j, c), List.mem_filter.mpr ⟨?_, ?_⟩, rfl⟩
      · exact List.mem_filterMap.mpr
          ⟨(i, j), List.pair_mem_product.mpr ⟨hi, hj⟩, by rw [hc]; rfl⟩
      · exact decide_eq_true hij

theorem mem_monthlyCorr {minDays : Nat} {obs : List Obs} {e : CEdge} :
    e ∈ monthlyCorr minDays obs ↔
      ∃ m ∈ obsMonths obs, e ∈ monthEdges minDays m (obsInMonth m obs) := by
  simp [monthlyCorr, List.mem_flatMap]

theorem monthEdges_month {minDays : Nat} {m : Date} {rows : List Obs} {e : CEdge}
    (he : e ∈ monthEdges minDays m rows) : e.month = m := by
  obtain ⟨-, i, j, c, -, -, -, -, rfl⟩ := mem_monthEdges.mp he
  rfl

theorem corrRep_def (ps : List (ℚ × ℚ)) : corrRep ps =
    if (ps.length : ℚ) * (ps.map (fun p => p.1 * p.1)).sum -
          (ps.map (fun p => p.1)).sum * (ps.map (fun p => p.1)).sum = 0 ∨
        (ps.length : ℚ) * (ps.map (fun p => p.2 * p.2)).sum -
          (ps.map (fun p => p.2)).sum * (ps.map (fun p => p.2)).sum = 0 then none
    else some ((ps.length : ℚ) * (ps.map (fun p => p.1 * p.2)).sum -
        (ps.map (fun p => p.1)).sum * (ps.map (fun p => p.2)).sum,
      ((ps.length : ℚ) * (ps.map (fun p => p.1 * p.1)).sum -
          (ps.map (fun p => p.1)).sum * (ps.map (fun p => p.1)).sum) *
        ((ps.length : ℚ) * (ps.map (fun p => p.2 * p.2)).sum -
          (ps.map (fun p => p.2)).sum * (ps.map (fun p => p.2)).sum)) := rfl

theorem corrRep_swap (ps : List (ℚ × ℚ)) :
    corrRep (ps.map Prod.swap) = corrRep ps := by
  rw [corrRep_def, corrRep_def]
  simp only [List.map_map, List.length_map]
  have e1 : ps.map ((fun p : ℚ × ℚ => p.1) ∘ Prod.swap) = ps.map (fun p => p.2) := rfl
  have e2 : ps.map ((fun p : ℚ × ℚ => p.2) ∘ Prod.swap) = ps.map (fun p => p.1) := rfl
  have e3 : ps.map ((fun p : ℚ × ℚ => p.1 * p.1) ∘ Prod.swap) =
      ps.map (fun p => p.2 * p.2) := rfl
  have e4 : ps.map ((fun p : ℚ × ℚ => p.2 * p.2) ∘ Prod.swap) =
      ps.map (fun p => p.1 * p.1) := rfl
  have e5 : ps.map ((fun p : ℚ × ℚ => p.1 * p.2) ∘ Prod.swap) =
      ps.map (fun p => p.2 * p.1) := rfl
  rw [e1, e2, e3, e4, e5]
  have e6 : (ps.map (fun p => p.2 * p.1)).sum = (ps.map (fun p => p.1 * p.2)).sum := by
    refine congrArg List.sum (List.map_congr_left ?_)
    intro p _
    exact mul_comm p.2 p.1
  rw [e6]
  by_cases hA : (ps.length : ℚ) * (ps.map (fun p => p.1 * p.1)).sum -
      (ps.map (fun p => p.1)).sum * (ps.map (fun p => p.1)).sum = 0 <;>
    by_cases hB : (ps.length : ℚ) * (ps.map (fun p => p.2 * p.2)).sum -
        (ps.map (fun p => p.2)).sum * (ps.map (fun p => p.2)).sum = 0 <;>
      simp [hA, hB, mul_comm]

theorem overlapSeries_swap (rows : List Obs) (i j : String) :
    overlapSeries rows j i = (overlapSeries rows i j).map Prod.swap := by
  unfold overlapSeries
  rw [List.map_filterMap]
  refine List.filterMap_congr ?_
  intro t _
  cases valueAt rows i t <;> cases valueAt rows j t <;> rfl

theorem corrEntry_symm (rows : List Obs) (i j : String) :
    corrEntry rows j i = corrEntry rows i j := by
  unfold corrEntry
  rw [overlapSeries_swap rows i j, corrRep_swap]

/-! ## Stage 2 lemmas: graph construction -/

theorem addNode_edges (g : Graph) (v : String) : (addNode g v).edges = g.edges := by
  unfold addNode
  split <;> rfl

theorem hasEdgeB_addNode (g : Graph) (v a b : String) :
    hasEdgeB (addNode g v) a b = hasEdgeB g a b := by
  unfold hasEdgeB
  rw [addNode_edges]

theorem mem_addNode_nodes {g : Graph} {v w : String} :
    w ∈ (addNode g v).nodes ↔ w ∈ g.nodes ∨ w = v := by
  unfold addNode
  by_cases h : v ∈ g.nodes
  · rw [if_pos h]
    constructor
    · exact fun hw => Or.inl hw
    · rintro (hw | rfl)
      · exact hw
      · exact h
  · rw [if_neg h]
    simp

theorem addNode_nodup {g : Graph} (h : g.nodes.Nodup) (v : String) :
    (addNode g v).nodes.Nodup := by
  unfold addNode
  by_cases hv : v ∈ g.nodes
  · rw [if_pos hv]
    exact h
  · rw [if_neg hv]
    simp [List.nodup_append, h, hv]

theorem hasEdgeB_iff {g : Graph} {a b : String} :
    hasEdgeB g a b = true ↔
      ∃ e ∈ g.edges, (e.1 = a ∧ e.2 = b) ∨ (e.1 = b ∧ e.2 = a) := by
  simp [hasEdgeB, List.any_eq_true]

theorem hasEdgeB_symm (g : Graph) (a b : String) :
    hasEdgeB g a b = hasEdgeB g b a := by
  rw [Bool.eq_iff_iff, hasEdgeB_iff, hasEdgeB_iff]
  constructor <;> (rintro ⟨e, he, h⟩; exact ⟨e, he, h.symm⟩)

theorem addEdge_nodes_mem {g : Graph} {u v w : String} :
    w ∈ (addEdge g u v).nodes ↔ w ∈ g.nodes ∨ w = u ∨ w = v := by
  simp only [addEdge]
  split
  · simp [mem_addNode_nodes, or_assoc]
  · show w ∈ (addNode (addNode g u) v).nodes ↔ _
    simp [mem_addNode_nodes, or_assoc]

theorem addEdge_nodup {g : Graph} (h : g.nodes.Nodup) (u v : String) :
    (addEdge g u v).nodes.Nodup := by
  simp only [addEdge]
  split
  · exact addNode_nodup (addNode_nodup h u) v
  · exact addNode_nodup (addNode_nodup h u) v

theorem hasEdgeB_addEdge (g : Graph) (u v a b : String) :
    hasEdgeB (addEdge g u v) a b = true ↔
      hasEdgeB g a b = true ∨ ((u = a ∧ v = b) ∨ (u = b ∧ v = a)) := by
  simp only [addEdge]
  split
  · rename_i hcond
    rw [hasEdgeB_addNode, hasEdgeB_addNode]
    rw [hasEdgeB_addNode, hasEdgeB_addNode] at hcond
    constructor
    · exact Or.inl
    · rintro (h | ⟨rfl, rfl⟩ | ⟨rfl, rfl⟩)
      · exact h
      · exact hcond
      · rw [hasEdgeB_symm]
        exact hcond
  · show (hasEdgeB ⟨(addNode (addNode g u) v).nodes,
      (addNode (addNode g u) v).edges ++ [(u, v)]⟩ a b = true) ↔ _
    unfold hasEdgeB
    simp only [addNode_edges, List.any_append, Bool.or_eq_true, List.any_eq_true,
      List.mem_singleton, Bool.and_eq_true, decide_eq_true_eq]
    constructor
    · rintro (h | ⟨x, rfl, hx⟩)
      · exact Or.inl h
      · exact Or.inr hx
    · rintro (h | h)
      · exact Or.inl h
      · exact Or.inr ⟨(u, v), rfl, h⟩

/-- The structural invariant of graphs grown by `add_edge`: distinct
nodes, and every edge endpoint is a node. -/
def GInv (g : Graph) : Prop :=
  g.nodes.Nodup ∧ ∀ a b, hasEdgeB g a b = true → a ∈ g.nodes ∧ b ∈ g.nodes

theorem gInv_addEdge {g : Graph} (h : GInv g) (u v : String) :
    GInv (addEdge g u v) := by
  obtain ⟨hnd, hend⟩ := h
  refine ⟨addEdge_nodup hnd u v, ?_⟩
  intro a b hab
  rcases (hasEdgeB_addEdge g u v a b).mp hab with hold | hnew
  · obtain ⟨ha, hb⟩ := hend a b hold
    exact ⟨addEdge_nodes_mem.mpr (Or.inl ha), addEdge_nodes_mem.mpr (Or.inl hb)⟩
  · rcases hnew with ⟨rfl, rfl⟩ | ⟨rfl, rfl⟩
    · exact ⟨addEdge_nodes_mem.mpr (Or.inr (Or.inl rfl)),
        addEdge_nodes_mem.mpr (Or.inr (Or.inr rfl))⟩
    · exact ⟨addEdge_nodes_mem.mpr (Or.inr (Or.inr rfl)),
        addEdge_nodes_mem.mpr (Or.inr (Or.inl rfl))⟩

theorem gInv_foldl (rows : List NEdge) :
    ∀ g : Graph, GInv g →
      GInv (rows.foldl (fun g e => addEdge g e.asset_i e.asset_j) g) := by
  induction rows with
  | nil => exact fun g h => h
  | cons e rest ih =>
    intro g h
    exact ih (addEdge g e.asset_i e.asset_j) (gInv_addEdge h e.asset_i e.asset_j)

theorem gInv_buildGraph (rows : List NEdge) : GInv (buildGraph rows) := by
  refine gInv_foldl rows ⟨[], []⟩ ⟨List.nodup_nil, ?_⟩
  intro a b hab
  simp [hasEdgeB] at hab

theorem hasEdgeB_foldl (rows : List NEdge) :
    ∀ (g : Graph) (a b : String),
      hasEdgeB (rows.foldl (fun g e => addEdge g e.asset_i e.asset_j) g) a b = true ↔
        hasEdgeB g a b = true ∨ ∃ e ∈ rows,
          (e.asset_i = a ∧ e.asset_j = b) ∨ (e.asset_i = b ∧ e.asset_j = a) := by
  induction rows with
  | nil => simp
  | cons x rest ih =>
    intro g a b
    rw [List.foldl_cons, ih, hasEdgeB_addEdge]
    constructor
    · rintro ((h | h) | ⟨e, he, h⟩)
      · exact Or.inl h
      · exact Or.inr ⟨x, List.mem_cons_self x rest, h⟩
      · exact Or.inr ⟨e, List.mem_cons_of_mem x he, h⟩
    · rintro (h | ⟨e, he, h⟩)
      · exact Or.inl (Or.inl h)
      · rcases List.mem_cons.mp he with rfl | he2
        · exact Or.inl (Or.inr h)
        · exact Or.inr ⟨e, he2, h⟩

theorem hasEdgeB_buildGraph {rows : List NEdge} {a b : String} :
    hasEdgeB (buildGraph rows) a b = true ↔
      ∃ e ∈ rows, (e.asset_i = a ∧ e.asset_j = b) ∨ (e.asset_i = b ∧ e.asset_j = a) := by
  unfold buildGraph
  rw [hasEdgeB_foldl]
  simp [hasEdgeB]

theorem mem_nodes_foldl (rows : List NEdge) :
    ∀ (g : Graph) (w : String), w ∈ g.nodes →
      w ∈ (rows.foldl (fun g e => addEdge g e.asset_i e.asset_j) g).nodes := by
  induction rows with
  | nil => exact fun g w h => h
  | cons x rest ih =>
    intro g w h
    exact ih _ w (addEdge_nodes_mem.mpr (Or.inl h))

theorem buildGraph_nodes_ne_nil {rows : List NEdge} (h : rows ≠ []) :
    (buildGraph rows).nodes ≠ [] := by
  cases rows with
  | nil => exact absurd rfl h
  | cons e rest =>
    have hj : e.asset_j ∈ (buildGraph (e :: rest)).nodes := by
      unfold buildGraph
      rw [List.foldl_cons]
      exact mem_nodes_foldl rest _ _ (addEdge_nodes_mem.mpr (Or.inr (Or.inr rfl)))
    intro hnil
    rw [hnil] at hj
    exact List.not_mem_nil _ hj

theorem le_foldr_max {l : List Nat} {x : Nat} (hx : x ∈ l) : x ≤ l.foldr max 0 := by
  induction l with
  | nil => exact absurd hx (List.not_mem_nil x)
  | cons y ys ih =>
    rcases List.mem_cons.mp hx with rfl | hx2
    · exact le_max_left _ _
    · exact le_trans (ih hx2) (le_max_right _ _)

theorem foldr_max_le {l : List Nat} {B : Nat} (h : ∀ x ∈ l, x ≤ B) :
    l.foldr max 0 ≤ B := by
  induction l with
  | nil => exact Nat.zero_le B
  | cons y ys ih =>
    refine max_le (h y (List.mem_cons_self y ys)) (ih ?_)
    exact fun x hx => h x (List.mem_cons_of_mem y hx)

theorem foldr_max_mem (l : List Nat) : l.foldr max 0 ∈ l ∨ l.foldr max 0 = 0 := by
  induction l with
  | nil => exact Or.inr rfl
  | cons y ys ih =>
    by_cases h : ys.foldr max 0 ≤ y
    · left
      simp only [List.foldr_cons, max_eq_left h]
      exact List.mem_cons_self y ys
    · have hmax : max y (ys.foldr max 0) = ys.foldr max 0 :=
        max_eq_right (le_of_not_le h)
      rcases ih with hmem | hzero
      · left
        simp only [List.foldr_cons, hmax]
        exact List.mem_cons_of_mem y hmem
      · exact absurd (by omega : List.foldr max 0 ys ≤ y) h

/-! ## Stage 2 lemmas: connected components -/

theorem mem_stepReach {g : Graph} {S : List String} {a : String} :
    a ∈ stepReach g S ↔
      a ∈ S ∨ ∃ v ∈ S, a ∈ g.nodes ∧ hasEdgeB g v a = true := by
  simp [stepReach, List.mem_dedup, List.mem_append, List.mem_flatMap, List.mem_filter]

theorem subset_stepReach {g : Graph} {S : List String} : S ⊆ stepReach g S :=
  fun _ ha => mem_stepReach.mpr (Or.inl ha)

theorem stepReach_nodup (g : Graph) (S : List String) : (stepReach g S).Nodup :=
  List.nodup_dedup _

theorem stepReach_sub_nodes {g : Graph} {S : List String} (hS : S ⊆ g.nodes) :
    stepReach g S ⊆ g.nodes := by
  intro a ha
  rcases mem_stepReach.mp ha with h | ⟨v, _, ha2, _⟩
  · exact hS h
  · exact ha2

theorem closeReach_succ_comm (g : Graph) :
    ∀ (n : Nat) (S : List String),
      closeReach g (n + 1) S = stepReach g (closeReach g n S)
  | 0, _ => rfl
  | n + 1, S => by
    show closeReach g (n + 1) (stepReach g S) = _
    rw [closeReach_succ_comm g n (stepReach g S)]
    rfl

theorem subset_closeReach (g : Graph) :
    ∀ (n : Nat) (S : List String), S ⊆ closeReach g n S
  | 0, _ => fun _ ha => ha
  | n + 1, S => fun _ ha =>
    subset_closeReach g n (stepReach g S) (subset_stepReach ha)

theorem closeReach_sub_nodes (g : Graph) :
    ∀ (n : Nat) (S : List String), S ⊆ g.nodes → closeReach g n S ⊆ g.nodes
  | 0, _, h => h
  | n + 1, S, h => closeReach_sub_nodes g n (stepReach g S) (stepReach_sub_nodes h)

theorem closeReach_nodup (g : Graph) :
    ∀ (n : Nat) (S : List String), S.Nodup → (closeReach g n S).Nodup
  | 0, _, h => h
  | n + 1, S, _ => closeReach_nodup g n (stepReach g S) (stepReach_nodup g S)

theorem reach_of_mem_closeReach (g : Graph) :
    ∀ (n : Nat) (S : List String) (a : String), a ∈ closeReach g n S →
      ∃ s ∈ S, Reach g s a
  | 0, _, a, ha => ⟨a, ha, Relation.ReflTransGen.refl⟩
  | n + 1, S, a, ha => by
    obtain ⟨s, hs, hreach⟩ := reach_of_mem_closeReach g n (stepReach g S) a ha
    rcases mem_stepReach.mp hs with h | ⟨v, hv, _, hedge⟩
    · exact ⟨s, h, hreach⟩
    · exact ⟨v, hv, Relation.ReflTransGen.head hedge hreach⟩

theorem length_lt_stepReach {g : Graph} {S : List String} (hS : S.Nodup)
    (h : ¬ stepReach g S ⊆ S) : S.length + 1 ≤ (stepReach g S).length := by
  simp only [List.subset_def, not_forall] at h
  obtain ⟨x, hx, hxS⟩ := h
  have hsub : x :: S ⊆ stepReach g S := by
    intro a ha
    rcases List.mem_cons.mp ha with rfl | ha2
    · exact hx
    · exact subset_stepReach ha2
  have hnd : (x :: S).Nodup := List.nodup_cons.mpr ⟨hxS, hS⟩
  simpa using (List.subperm_of_subset hnd hsub).length_le

theorem stepfix_succ {g : Graph} {S : List String} (n : Nat)
    (h : stepReach g (closeReach g n S) ⊆ closeReach g n S) :
    stepReach g (closeReach g (n + 1) S) ⊆ closeReach g (n + 1) S := by
  rw [closeReach_succ_comm]
  intro a ha
  rcases mem_stepReach.mp ha with h1 | ⟨w, hw, hanodes, hedge⟩
  · exact h1
  · exact mem_stepReach.mpr (Or.inr ⟨w, h hw, hanodes, hedge⟩)

theorem stepfix_mono {g : Graph} {S : List String} {m n : Nat} (hmn : m ≤ n)
    (h : stepReach g (closeReach g m S) ⊆ closeReach g m S) :
    stepReach g (closeReach g n S) ⊆ closeReach g n S := by
  induction hmn with
  | refl => exact h
  | step _ ih => exact stepfix_succ _ ih

theorem closeReach_len_lb {g : Graph} {v : String} :
    ∀ k : Nat,
      (∀ j, j < k → ¬ stepReach g (closeReach g j [v]) ⊆ closeReach g j [v]) →
      k + 1 ≤ (closeReach g k [v]).length
  | 0, _ => by simp [closeReach]
  | k + 1, hall => by
    have ih := closeReach_len_lb k (fun j hj => hall j (Nat.lt_succ_of_lt hj))
    have hk := hall k (Nat.lt_succ_self k)
    have hgrow := length_lt_stepReach
      (closeReach_nodup g k [v] (List.nodup_singleton v)) hk
    rw [closeReach_succ_comm]
    omega

theorem compo_closed {g : Graph} {v : String}
    (hv : v ∈ g.nodes) : stepReach g (compo g v) ⊆ compo g v := by
  unfold compo
  by_contra hcon
  have hall : ∀ j, j < g.nodes.length →
      ¬ stepReach g (closeReach g j [v]) ⊆ closeReach g j [v] := by
    intro j hj hPj
    exact hcon (stepfix_mono (le_of_lt hj) hPj)
  have hlb := closeReach_len_lb g.nodes.length hall
  have hvsub : [v] ⊆ g.nodes := by
    intro a ha
    rw [List.mem_singleton] at ha
    exact ha ▸ hv
  have hub : (closeReach g g.nodes.length [v]).length ≤ g.nodes.length := by
    have hsub := closeReach_sub_nodes g g.nodes.length [v] hvsub
    have hnodup := closeReach_nodup g g.nodes.length [v] (List.nodup_singleton v)
    exact (List.subperm_of_subset hnodup hsub).length_le
  omega

theorem mem_compo_self {g : Graph} (v : String) : v ∈ compo g v :=
  subset_closeReach g g.nodes.length [v] (List.mem_singleton.mpr rfl)

theorem mem_compo_of_reach {g : Graph} (hg : GInv g) {v w : String}
    (hv : v ∈ g.nodes) (hr : Reach g v w) : w ∈ compo g v := by
  induction hr with
  | refl => exact mem_compo_self v
  | @tail b c _ hbc ih =>
    have hcnodes : c ∈ g.nodes := (hg.2 b c hbc).2
    exact compo_closed hv (mem_stepReach.mpr (Or.inr ⟨b, ih, hcnodes, hbc⟩))

theorem reach_of_mem_compo {g : Graph} {v w : String} (hw : w ∈ compo g v) :
    Reach g v w := by
  obtain ⟨s, hs, hr⟩ := reach_of_mem_closeReach g g.nodes.length [v] w hw
  rw [List.mem_singleton] at hs
  exact hs ▸ hr

theorem adjacent_symm (g : Graph) : Symmetric (adjacent g) := by
  intro a b h
  unfold adjacent at h ⊢
  rw [hasEdgeB_symm]
  exact h

theorem reach_symm {g : Graph} {a b : String} (h : Reach g a b) : Reach g b a :=
  Relation.ReflTransGen.symmetric (adjacent_symm g) h

theorem compo_sub_nodes {g : Graph} {v : String} (hv : v ∈ g.nodes) :
    compo g v ⊆ g.nodes := by
  refine closeReach_sub_nodes g _ [v] ?_
  intro a ha
  rw [List.mem_singleton] at ha
  exact ha ▸ hv

theorem compo_nodup (g : Graph) (v : String) : (compo g v).Nodup :=
  closeReach_nodup g _ [v] (List.nodup_singleton v)

theorem compo_length_le {g : Graph} {v : String}
    (hv : v ∈ g.nodes) : (compo g v).length ≤ g.nodes.length :=
  (List.subperm_of_subset (compo_nodup g v) (compo_sub_nodes hv)).length_le

theorem lccSize_le (g : Graph) : lccSize g ≤ g.nodes.length := by
  unfold lccSize
  refine foldr_max_le ?_
  intro x hx
  obtain ⟨v, hv, rfl⟩ := List.mem_map.mp hx
  exact compo_length_le hv

theorem lccSize_pos {g : Graph} (h : g.nodes ≠ []) : 1 ≤ lccSize g := by
  obtain ⟨v, hv⟩ := List.exists_mem_of_ne_nil g.nodes h
  have h1 : 1 ≤ (compo g v).length := List.length_pos_of_mem (mem_compo_self v)
  exact le_trans h1 (le_foldr_max (List.mem_map.mpr ⟨v, hv, rfl⟩))

theorem lccSize_eq_iff_connected {g : Graph} (hg : GInv g) (hne : g.nodes ≠ []) :
    lccSize g = g.nodes.length ↔ ConnectedG g := by
  constructor
  · intro hlcc
    rcases foldr_max_mem (g.nodes.map (fun v => (compo g v).length)) with hmem | hzero
    · obtain ⟨v, hv, hvlen⟩ := List.mem_map.mp hmem
      have hlen : (compo g v).length = g.nodes.length := by
        unfold lccSize at hlcc
        omega
      have hperm : (compo g v).Perm g.nodes :=
        (List.subperm_of_subset (compo_nodup g v) (compo_sub_nodes hv)).perm_of_length_le
          (le_of_eq hlen.symm)
      intro u hu w hw
      have hru : Reach g v u := reach_of_mem_compo (hperm.mem_iff.mpr hu)
      have hrw : Reach g v w := reach_of_mem_compo (hperm.mem_iff.mpr hw)
      exact (reach_symm hru).trans hrw
    · unfold lccSize at hlcc
      rw [hzero] at hlcc
      have : g.nodes.length = 0 := hlcc.symm
      exact absurd (List.length_eq_zero.mp this) hne
  · intro hconn
    obtain ⟨v, hv⟩ := List.exists_mem_of_ne_nil g.nodes hne
    have hsub2 : g.nodes ⊆ compo g v :=
      fun w hw => mem_compo_of_reach hg hv (hconn v hv w hw)
    have hlen : (compo g v).length = g.nodes.length :=
      le_antisymm (compo_length_le hv)
        ((List.subperm_of_subset hg.1 hsub2).length_le)
    have hge := le_foldr_max (l := g.nodes.map (fun u => (compo g u).length))
      (x := (compo g v).length) (List.mem_map.mpr ⟨v, hv, rfl⟩)
    have hle := lccSize_le g
    unfold lccSize at hle hge ⊢
    omega

/-! ## Stage 2 lemmas: per-month metrics -/

theorem mem_survFor {theta : ℚ} {m : Date} {rows : List NEdge} {e : NEdge} :
    e ∈ survFor theta m rows ↔
      e ∈ rows ∧ e.month = m ∧ ∃ c, e.corr = some c ∧ theta ≤ |c| := by
  unfold survFor
  simp only [List.mem_filter, decide_eq_true_eq, Option.isSome_iff_exists]
  constructor
  · rintro ⟨⟨⟨he, c, hc⟩, hm⟩, hkept⟩
    unfold corrKeptB at hkept
    rw [hc] at hkept
    exact ⟨he, hm, c, hc, of_decide_eq_true hkept⟩
  · rintro ⟨he, hm, c, hc, hth⟩
    refine ⟨⟨⟨he, c, hc⟩, hm⟩, ?_⟩
    unfold corrKeptB
    rw [hc]
    exact decide_eq_true hth

theorem metricsFor_of_surv_nil {theta : ℚ} {m : Date} {rows : List NEdge}
    (hs : survFor theta m rows = []) : metricsFor theta m rows = none := by
  unfold metricsFor
  rw [if_pos hs]

theorem metricsFor_of_surv_ne {theta : ℚ} {m : Date} {rows : List NEdge}
    (hs : survFor theta m rows ≠ []) :
    metricsFor theta m rows = some ⟨m, (graphFor theta m rows).nodes.length,
      (graphFor theta m rows).edges.length, densityFn (graphFor theta m rows),
      avgDegree (graphFor theta m rows), maxDegree (graphFor theta m rows),
      avgClustering (graphFor theta m rows), lccSize (graphFor theta m rows)⟩ := by
  unfold metricsFor
  rw [if_neg hs]
  have hne : (graphFor theta m rows).nodes ≠ [] := buildGraph_nodes_ne_nil hs
  rw [if_neg (fun h0 => hne (List.length_eq_zero.mp h0))]

theorem metricsFor_some_form {theta : ℚ} {m : Date} {rows : List NEdge}
    {row : MetricsRow} (h : metricsFor theta m rows = some row) :
    survFor theta m rows ≠ [] ∧
      row = ⟨m, (graphFor theta m rows).nodes.length,
        (graphFor theta m rows).edges.length, densityFn (graphFor theta m rows),
        avgDegree (graphFor theta m rows), maxDegree (graphFor theta m rows),
        avgClustering (graphFor theta m rows), lccSize (graphFor theta m rows)⟩ := by
  by_cases hs : survFor theta m rows = []
  · rw [metricsFor_of_surv_nil hs] at h
    cases h
  · rw [metricsFor_of_surv_ne hs] at h
    exact ⟨hs, (Option.some_inj.mp h).symm⟩

theorem rowMonths_nodup (rows : List NEdge) : (rowMonths rows).Nodup :=
  ((perm_sortLe dateLe _).nodup_iff).mpr (List.nodup_dedup _)

theorem mem_rowMonths_of_surv {theta : ℚ} {m : Date} {rows : List NEdge}
    (hs : survFor theta m rows ≠ []) : m ∈ rowMonths rows := by
  obtain ⟨e, he⟩ := List.exists_mem_of_ne_nil _ hs
  obtain ⟨herows, hm, c, hc, _⟩ := mem_survFor.mp he
  unfold rowMonths
  rw [(perm_sortLe dateLe _).mem_iff, List.mem_dedup]
  exact List.mem_map.mpr ⟨e, List.mem_filter.mpr ⟨herows, by simp [hc]⟩, hm⟩

theorem countP_month_filterMap {theta : ℚ} {rows : List NEdge} :
    ∀ ms : List Date, ms.Nodup → ∀ M : Date,
      (ms.filterMap (fun m => metricsFor theta m rows)).countP
          (fun r => decide (r.month = M)) =
        if M ∈ ms ∧ (metricsFor theta M rows).isSome then 1 else 0 := by
  intro ms
  induction ms with
  | nil =>
    intro _ M
    simp
  | cons x xs ih =>
    intro hnd M
    obtain ⟨hxnot, hnd2⟩ := List.nodup_cons.mp hnd
    rw [List.filterMap_cons]
    cases hmx : metricsFor theta x rows with
    | none =>
      rw [ih hnd2 M]
      by_cases hMx : M = x
      · subst hMx
        simp [hmx, hxnot]
      · simp [List.mem_cons, hMx]
    | some row =>
      have hrowm : row.month = x := by
        rw [(metricsFor_some_form hmx).2]
      rw [List.countP_cons, ih hnd2 M]
      by_cases hMx : M = x
      · subst hMx
        simp [hxnot, hrowm, hmx]
      · have hne2 : ¬ row.month = M := by
          rw [hrowm]
          exact fun h => hMx h.symm
        simp [List.mem_cons, hMx, hne2]

theorem countP_networkMetrics {theta : ℚ} {rows : List NEdge} {M : Date} :
    (networkMetrics theta rows).countP (fun r => decide (r.month = M)) =
      if survFor theta M rows = [] then 0 else 1 := by
  unfold networkMetrics
  rw [List.Perm.countP_eq _ (perm_sortLe _ _),
    countP_month_filterMap _ (rowMonths_nodup rows) M]
  by_cases hs : survFor theta M rows = []
  · rw [if_pos hs]
    simp [metricsFor_of_surv_nil hs]
  · rw [if_neg hs]
    simp [mem_rowMonths_of_surv hs, metricsFor_of_surv_ne hs]

theorem networkMetrics_sorted (theta : ℚ) (rows : List NEdge) :
    (networkMetrics theta rows).Pairwise
      (fun a b => dateLe a.month b.month = true) := by
  unfold networkMetrics
  exact pairwise_sortLe
    (fun (a b : MetricsRow) => dateLe_total a.month b.month)
    (fun (a b c : MetricsRow) h1 h2 => dateLe_trans a.month b.month c.month h1 h2) _

theorem networkMetrics_nil_of_no_surv {theta : ℚ} {rows : List NEdge}
    (h : ∀ m, survFor theta m rows = []) : networkMetrics theta rows = [] := by
  unfold networkMetrics
  have hnil : (rowMonths rows).filterMap (fun m => metricsFor theta m rows) = [] := by
    rw [List.filterMap_eq_nil_iff]
    exact fun m _ => metricsFor_of_surv_nil (h m)
  rw [hnil]
  rfl

/-! ## Stage 2 lemmas: clustering -/

theorem nbrs_nodup {g : Graph} (hnd : g.nodes.Nodup) (v : String) :
    (nbrs g v).Nodup :=
  List.Nodup.filter _ hnd

theorem linkedNbr_le {g : Graph} (hnd : g.nodes.Nodup) (v : String) :
    linkedNbr g v ≤ (nbrs g v).length * (nbrs g v).length - (nbrs g v).length := by
  unfold linkedNbr
  refine le_trans (List.countP_mono_left ?_)
    (le_of_eq (countP_offdiag_product (nbrs_nodup hnd v)))
  intro p _ h
  exact ((Bool.and_eq_true _ _).mp h).1

theorem clusteringCoef_eq_spec {g : Graph} (hnd : g.nodes.Nodup) (v : String) :
    clusteringCoef g v = clusteringSpec g v := by
  unfold clusteringCoef clusteringSpec
  by_cases hd : (nbrs g v).length < 2
  · simp [hd]
  · rw [if_neg hd, if_neg hd]
    have hnum : ((((nbrs g v).product (nbrs g v)).filter
        (fun p => decide (p.1 ≠ p.2))).filter
          (fun p => hasEdgeB g p.1 p.2)).length = linkedNbr g v := by
      rw [← List.countP_eq_length_filter, List.countP_filter]
      unfold linkedNbr
      refine List.countP_congr ?_
      intro p _
      rw [Bool.and_comm]
    have hden : (((nbrs g v).product (nbrs g v)).filter
        (fun p => decide (p.1 ≠ p.2))).length =
        (nbrs g v).length * (nbrs g v).length - (nbrs g v).length := by
      rw [← List.countP_eq_length_filter]
      exact countP_offdiag_product (nbrs_nodup hnd v)
    rw [hnum, hden]
    have hd2 : 2 ≤ (nbrs g v).length := le_of_not_lt hd
    have hsub : (nbrs g v).length ≤ (nbrs g v).length * (nbrs g v).length :=
      Nat.le_mul_of_pos_left _ (by omega)
    have hcast : (((nbrs g v).length * (nbrs g v).length - (nbrs g v).length : Nat) : ℚ)
        = ((nbrs g v).length : ℚ) * (((nbrs g v).length : ℚ) - 1) := by
      rw [Nat.cast_sub hsub]
      push_cast
      ring
    rw [hcast]

theorem clusteringCoef_nonneg (g : Graph) (v : String) :
    0 ≤ clusteringCoef g v := by
  unfold clusteringCoef
  by_cases hd : (nbrs g v).length < 2
  · rw [if_pos hd]
  · rw [if_neg hd]
    have hd2 : (2:ℚ) ≤ ((nbrs g v).length : ℚ) := by
      exact_mod_cast le_of_not_lt hd
    have hpos : (0:ℚ) < ((nbrs g v).length : ℚ) * (((nbrs g v).length : ℚ) - 1) := by
      nlinarith
    exact div_nonneg (Nat.cast_nonneg _) (le_of_lt hpos)

theorem clusteringCoef_le_one {g : Graph} (hnd : g.nodes.Nodup) (v : String) :
    clusteringCoef g v ≤ 1 := by
  unfold clusteringCoef
  by_cases hd : (nbrs g v).length < 2
  · rw [if_pos hd]
    exact zero_le_one
  · rw [if_neg hd]
    have hd2 : (2:ℚ) ≤ ((nbrs g v).length : ℚ) := by
      exact_mod_cast le_of_not_lt hd
    have hpos : (0:ℚ) < ((nbrs g v).length : ℚ) * (((nbrs g v).length : ℚ) - 1) := by
      nlinarith
    rw [div_le_one hpos]
    have hle := linkedNbr_le hnd v
    have hsub : (nbrs g v).length ≤ (nbrs g v).length * (nbrs g v).length :=
      Nat.le_mul_of_pos_left _ (by omega)
    have hcast : ((linkedNbr g v : Nat) : ℚ) ≤
        (((nbrs g v).length * (nbrs g v).length - (nbrs g v).length : Nat) : ℚ) := by
      exact_mod_cast hle
    calc (linkedNbr g v : ℚ) ≤
        (((nbrs g v).length * (nbrs g v).length - (nbrs g v).length : Nat) : ℚ) := hcast
      _ = ((nbrs g v).length : ℚ) * (((nbrs g v).length : ℚ) - 1) := by
          rw [Nat.cast_sub hsub]
          push_cast
          ring

theorem avgClustering_eq_spec {g : Graph} (hnd : g.nodes.Nodup)
    (h : g.nodes.length ≠ 0) :
    avgClustering g = ((g.nodes.map (clusteringSpec g)).sum) / (g.nodes.length : ℚ) := by
  unfold avgClustering
  rw [if_neg h]
  congr 2
  exact List.map_congr_left (fun v _ => clusteringCoef_eq_spec hnd v)

theorem avgClustering_mem_unit {g : Graph} (hnd : g.nodes.Nodup) :
    0 ≤ avgClustering g ∧ avgClustering g ≤ 1 := by
  unfold avgClustering
  by_cases h : g.nodes.length = 0
  · rw [if_pos h]
    exact ⟨le_refl 0, zero_le_one⟩
  · rw [if_neg h]
    have hn : (0:ℚ) < (g.nodes.length : ℚ) := by
      exact_mod_cast Nat.pos_of_ne_zero h
    constructor
    · refine div_nonneg (List.sum_nonneg ?_) (le_of_lt hn)
      intro x hx
      obtain ⟨v, _, rfl⟩ := List.mem_map.mp hx
      exact clusteringCoef_nonneg g v
    · rw [div_le_one hn]
      have hsum := List.sum_le_card_nsmul (g.nodes.map (clusteringCoef g)) 1 ?_
      · simpa using hsum
      · intro x hx
        obtain ⟨v, _, rfl⟩ := List.mem_map.mp hx
        exact clusteringCoef_le_one hnd v

/-! ## Stage 2 lemmas: density and degrees -/

theorem densityFn_cases (g : Graph) :
    densityFn g = if g.nodes.length < 2 then 0
      else 2 * (g.edges.length : ℚ) /
        ((g.nodes.length : ℚ) * ((g.nodes.length : ℚ) - 1)) := by
  unfold densityFn
  by_cases hn : g.nodes.length ≤ 1
  · rw [if_pos (Or.inr hn), if_pos (by omega)]
  · rw [if_neg (by omega : ¬ g.nodes.length < 2)]
    by_cases hm : g.edges.length = 0
    · rw [if_pos (Or.inl hm), hm]
      simp
    · rw [if_neg (not_or.mpr ⟨hm, hn⟩)]

theorem degree_pos_of_mem {g : Graph} {u w v : String}
    (he : (u, w) ∈ g.edges) (hv : u = v ∨ w = v) : 1 ≤ degree g v := by
  unfold degree
  have hmem : ((if u = v then 1 else 0) + (if w = v then 1 else 0) : Nat) ∈
      g.edges.map (fun e => (if e.1 = v then 1 else 0) + (if e.2 = v then 1 else 0)) :=
    List.mem_map.mpr ⟨(u, w), he, rfl⟩
  have hx : 1 ≤ (if u = v then 1 else 0) + (if w = v then 1 else 0) := by
    rcases hv with rfl | rfl
    · simp
    · simp
  exact le_trans hx (List.single_le_sum (fun x _ => Nat.zero_le x) _ hmem)

theorem one_le_maxDegree {g : Graph} {v : String} (hv : v ∈ g.nodes)
    (hd : 1 ≤ degree g v) : 1 ≤ maxDegree g := by
  unfold maxDegree
  exact le_trans hd (le_foldr_max (List.mem_map.mpr ⟨v, hv, rfl⟩))

theorem two_le_length_of_mem {l : List String} {a b : String}
    (ha : a ∈ l) (hb : b ∈ l) (hab : a ≠ b) : 2 ≤ l.length := by
  have hsub : [a, b] ⊆ l := by
    intro x hx
    rcases List.mem_cons.mp hx with rfl | hx2
    · exact ha
    · rw [List.mem_singleton] at hx2
      exact hx2 ▸ hb
  have hnd2 : ([a, b] : List String).Nodup := by simp [hab]
  simpa using (List.subperm_of_subset hnd2 hsub).length_le

/-! ## Stage 1 lemmas: per-month edge counting -/

theorem obsMonths_nodup (obs : List Obs) : (obsMonths obs).Nodup :=
  ((perm_sortLe dateLe _).nodup_iff).mpr (List.nodup_dedup _)

theorem mem_obsMonths {obs : List Obs} {M : Date} :
    M ∈ obsMonths obs ↔ ∃ r ∈ obs, monthOf r.day = M := by
  unfold obsMonths
  rw [(perm_sortLe dateLe _).mem_iff, List.mem_dedup]
  simp [List.mem_map]

theorem countP_month_flatMap {minDays : Nat} {obs : List Obs} :
    ∀ ms : List Date, ms.Nodup → ∀ M ∈ ms,
      ((ms.flatMap (fun m => monthEdges minDays m (obsInMonth m obs))).countP
        (fun e => decide (e.month = M))) =
      (monthEdges minDays M (obsInMonth M obs)).length := by
  intro ms
  induction ms with
  | nil =>
    intro _ M hM
    exact absurd hM (List.not_mem_nil M)
  | cons x xs ih =>
    intro hnd M hM
    obtain ⟨hxnot, hnd2⟩ := List.nodup_cons.mp hnd
    rw [List.flatMap_cons, List.countP_append]
    rcases List.mem_cons.mp hM with rfl | hM2
    · have h1 : (monthEdges minDays M (obsInMonth M obs)).countP
          (fun e => decide (e.month = M)) =
          (monthEdges minDays M (obsInMonth M obs)).length :=
        List.countP_eq_length.mpr
          (fun e he => decide_eq_true (monthEdges_month he))
      have h2 : ((xs.flatMap (fun m => monthEdges minDays m (obsInMonth m obs))).countP
          (fun e => decide (e.month = M))) = 0 := by
        refine List.countP_eq_zero.mpr ?_
        intro e he
        obtain ⟨m, hm, he2⟩ := List.mem_flatMap.mp he
        have hem : e.month = m := monthEdges_month he2
        intro hdec
        have : e.month = M := of_decide_eq_true hdec
        rw [hem] at this
        exact hxnot (this ▸ hm)
      omega
    · have h1 : (monthEdges minDays x (obsInMonth x obs)).countP
          (fun e => decide (e.month = M)) = 0 := by
        refine List.countP_eq_zero.mpr ?_
        intro e he
        have hem : e.month = x := monthEdges_month he
        intro hdec
        have hMx : e.month = M := of_decide_eq_true hdec
        rw [hem] at hMx
        exact hxnot (hMx ▸ hM2)
      rw [ih hnd2 M hM2]
      omega

theorem monthEdges_length_of_defined {minDays : Nat} {m : Date} {rows : List Obs}
    (hk : 2 ≤ (keepFor minDays rows).length)
    (hdef : ∀ i ∈ keepFor minDays rows, ∀ j ∈ keepFor minDays rows, i ≠ j →
      (corrEntry rows i j).isSome = true) :
    (monthEdges minDays m rows).length =
      (keepFor minDays rows).length * ((keepFor minDays rows).length - 1) := by
  rw [monthEdges_eq, if_neg (by omega), List.length_map]
  unfold stackPairs
  rw [length_filter_filterMap]
  have hcongr : ((keepFor minDays rows).product (keepFor minDays rows)).countP
      (fun p => (((corrEntry rows p.1 p.2).map
        (fun c => (p.1, p.2, c))).map
          (fun t : String × String × (ℚ × ℚ) => decide (t.1 ≠ t.2.1))).getD false) =
      ((keepFor minDays rows).product (keepFor minDays rows)).countP
        (fun p => decide (p.1 ≠ p.2)) := by
    refine List.countP_congr ?_
    intro p hp
    obtain ⟨hp1, hp2⟩ := List.pair_mem_product.mp hp
    by_cases hne : p.1 = p.2
    · cases hc : corrEntry rows p.1 p.2 <;> simp [hne, hc]
    · have hsome := hdef p.1 hp1 p.2 hp2 hne
      obtain ⟨c, hc⟩ := Option.isSome_iff_exists.mp hsome
      simp [hc, hne]
  rw [hcongr, countP_offdiag_product (keepFor_nodup minDays rows),
    Nat.mul_sub_one]

theorem mem_assetsOf {rows : List Obs} {a : String} :
    a ∈ assetsOf rows ↔ ∃ r ∈ rows, r.asset = a := by
  unfold assetsOf
  rw [List.mem_dedup]
  simp [List.mem_map]

theorem mem_obsInMonth {M : Date} {obs : List Obs} {r : Obs} :
    r ∈ obsInMonth M obs ↔ r ∈ obs ∧ monthOf r.day = M := by
  simp [obsInMonth, List.mem_filter]

theorem mem_obsMonths_of_keep {minDays : Nat} {obs : List Obs} {M : Date}
    (hk : 2 ≤ (keepFor minDays (obsInMonth M obs)).length) : M ∈ obsMonths obs := by
  have hne : keepFor minDays (obsInMonth M obs) ≠ [] := by
    intro h0
    rw [h0] at hk
    simp at hk
  obtain ⟨a, ha⟩ := List.exists_mem_of_ne_nil _ hne
  obtain ⟨r, hr, -⟩ := mem_assetsOf.mp (mem_keepFor.mp ha).1
  obtain ⟨hro, hrm⟩ := mem_obsInMonth.mp hr
  exact mem_obsMonths.mpr ⟨r, hro, hrm⟩

/-! ## Example inputs -/

/-- Assets "A" and "B", ten daily observations each, on disjoint days of
January 2024: both survive the ten-day filter, but the pair has no
overlapping day, so its correlation is undefined. -/
def exDisjoint : List Obs :=
  (List.range 10).map (fun k => ⟨"A", ⟨2024, 1, k + 1⟩, (k : ℚ) + 1⟩) ++
    (List.range 10).map (fun k => ⟨"B", ⟨2024, 1, k + 11⟩, (k : ℚ)⟩)

/-- Assets "A" and "B", ten daily observations each on the same ten days
of January 2024, with non-constant values, so the pair correlation is
defined. -/
def exOverlap : List Obs :=
  (List.range 10).map (fun k => ⟨"A", ⟨2024, 1, k + 1⟩, (k : ℚ) + 1⟩) ++
    (List.range 10).map (fun k => ⟨"B", ⟨2024, 1, k + 1⟩, 2 * (k : ℚ)⟩)

/-- Four correlation rows: a strong pair in both directions and a weak
pair in January 2024, and an absent correlation in February 2024. -/
def exNEdges : List NEdge :=
  [⟨⟨2024, 1, 1⟩, "A", "B", some (9/10)⟩, ⟨⟨2024, 1, 1⟩, "B", "A", some (9/10)⟩,
    ⟨⟨2024, 1, 1⟩, "A", "C", some (2/10)⟩, ⟨⟨2024, 2, 1⟩, "A", "B", none⟩]

/-! ## Claims -/

set_option maxRecDepth 100000

/-- Concrete evaluation of the Correlation Builder on `exOverlap`. -/
theorem exOverlap_monthlyCorr :
    monthlyCorr 10 exOverlap =
      [⟨⟨2024, 1, 1⟩, "A", "B", some (1650, 2722500)⟩,
        ⟨⟨2024, 1, 1⟩, "B", "A", some (1650, 2722500)⟩] := by
  with_unfolding_all rfl

/-- C9: every edge row emitted by the Correlation Builder carries a
present correlation value — undefined pairwise correlations are dropped
by the `stack` flattening, so `corr` is never absent in the output even
though the schema permits absence. -/
theorem monthlyCorr_corr_present (minDays : Nat) (obs : List Obs)
    (hw : WellFormedObs obs) :
    ∀ e ∈ monthlyCorr minDays obs, ∃ c, e.corr = some c := by
  intro e he
  obtain ⟨m, -, he2⟩ := mem_monthlyCorr.mp he
  obtain ⟨-, i, j, c, -, -, -, -, rfl⟩ := mem_monthEdges.mp he2
  exact ⟨c, rfl⟩

theorem monthlyCorr_corr_present_witness :
    WellFormedObs exOverlap ∧
      ∀ e ∈ monthlyCorr 10 exOverlap, ∃ c, e.corr = some c :=
  ⟨by decide, monthlyCorr_corr_present 10 exOverlap (by decide)⟩

/-- C2: every emitted correlation edge has distinct endpoints, and the
mirrored ordered edge, carrying the identical correlation value, is also
emitted for the same month. -/
theorem monthlyCorr_symmetric (minDays : Nat) (obs : List Obs)
    (hw : WellFormedObs obs) :
    ∀ e ∈ monthlyCorr minDays obs, e.asset_i ≠ e.asset_j ∧
      (⟨e.month, e.asset_j, e.asset_i, e.corr⟩ : CEdge) ∈ monthlyCorr minDays obs := by
  intro e he
  obtain ⟨m, hm, he2⟩ := mem_monthlyCorr.mp he
  obtain ⟨hk, i, j, c, hi, hj, hij, hc, rfl⟩ := mem_monthEdges.mp he2
  refine ⟨hij, mem_monthlyCorr.mpr ⟨m, hm, mem_monthEdges.mpr
    ⟨hk, j, i, c, hj, hi, Ne.symm hij, ?_, rfl⟩⟩⟩
  rw [corrEntry_symm]
  exact hc

theorem monthlyCorr_symmetric_witness :
    WellFormedObs exOverlap ∧
      ("A" : String) ≠ "B" ∧
      (⟨⟨2024, 1, 1⟩, "B", "A", some (1650, 2722500)⟩ : CEdge) ∈
        monthlyCorr 10 exOverlap := by
  have hw : WellFormedObs exOverlap := by decide
  have hmem : (⟨⟨2024, 1, 1⟩, "A", "B", some (1650, 2722500)⟩ : CEdge) ∈
      monthlyCorr 10 exOverlap := by
    rw [exOverlap_monthlyCorr]
    exact List.mem_cons_self _ _
  have h := monthlyCorr_symmetric 10 exOverlap hw _ hmem
  exact ⟨hw, h.1, h.2⟩

/-- C3: every asset appearing as an endpoint of an emitted edge for month
M has at least `min_days_per_asset` valid observations within M, and a
month in which fewer than 2 assets meet the bound emits no edges. -/
theorem monthlyCorr_min_days (minDays : Nat) (obs : List Obs)
    (hw : WellFormedObs obs) :
    (∀ e ∈ monthlyCorr minDays obs,
        minDays ≤ validCount (obsInMonth e.month obs) e.asset_i ∧
          minDays ≤ validCount (obsInMonth e.month obs) e.asset_j) ∧
      ∀ M : Date, (keepFor minDays (obsInMonth M obs)).length < 2 →
        ∀ e ∈ monthlyCorr minDays obs, e.month ≠ M := by
  constructor
  · intro e he
    obtain ⟨m, hm, he2⟩ := mem_monthlyCorr.mp he
    obtain ⟨hk, i, j, c, hi, hj, hij, hc, rfl⟩ := mem_monthEdges.mp he2
    exact ⟨(mem_keepFor.mp hi).2, (mem_keepFor.mp hj).2⟩
  · intro M hM e he hem
    obtain ⟨m, hm, he2⟩ := mem_monthlyCorr.mp he
    have hm2 : e.month = m := monthEdges_month he2
    have hmM : m = M := by rw [← hm2, hem]
    subst hmM
    obtain ⟨hk, -⟩ := mem_monthEdges.mp he2
    omega

theorem monthlyCorr_min_days_witness :
    WellFormedObs exOverlap ∧
      (10 ≤ validCount (obsInMonth ⟨2024, 1, 1⟩ exOverlap) "A" ∧
        10 ≤ validCount (obsInMonth ⟨2024, 1, 1⟩ exOverlap) "B") := by
  have hw : WellFormedObs exOverlap := by decide
  have hmem : (⟨⟨2024, 1, 1⟩, "A", "B", some (1650, 2722500)⟩ : CEdge) ∈
      monthlyCorr 10 exOverlap := by
    rw [exOverlap_monthlyCorr]
    exact List.mem_cons_self _ _
  exact ⟨hw, (monthlyCorr_min_days 10 exOverlap hw).1 _ hmem⟩

/-- C1 as stated is false on the code: in January 2024 of `exDisjoint`,
k = 2 assets survive the `min_days_per_asset = 10` filter, yet the
builder emits 0 edges for that month, not k·(k−1) = 2, because the pair's
correlation is absent (no overlapping days) and the `stack` flattening
drops absent entries instead of emitting them. -/
theorem monthlyCorr_edge_count_cex :
    (keepFor 10 (obsInMonth ⟨2024, 1, 1⟩ exDisjoint)).length = 2 ∧
      monthlyCorr 10 exDisjoint = [] ∧
      (monthlyCorr 10 exDisjoint).countP
          (fun e => decide (e.month = (⟨2024, 1, 1⟩ : Date))) ≠ 2 * (2 - 1) := by
  refine ⟨by decide, ?_, ?_⟩
  · with_unfolding_all rfl
  · have h : monthlyCorr 10 exDisjoint = [] := by with_unfolding_all rfl
    rw [h]
    decide

/-- C1 amended: for a month M in which k ≥ 2 assets survive the filter,
the builder emits one edge per ordered pair (i, j), i ≠ j, of surviving
assets whose pairwise correlation is present; pairs with an absent
correlation are dropped.  In particular, when every such pair's
correlation is present, exactly k·(k−1) edges are emitted for M. -/
theorem monthlyCorr_edge_count (minDays : Nat) (obs : List Obs) (M : Date)
    (hw : WellFormedObs obs)
    (hk : 2 ≤ (keepFor minDays (obsInMonth M obs)).length)
    (hdef : ∀ i ∈ keepFor minDays (obsInMonth M obs),
      ∀ j ∈ keepFor minDays (obsInMonth M obs), i ≠ j →
        (corrEntry (obsInMonth M obs) i j).isSome = true) :
    (monthlyCorr minDays obs).countP (fun e => decide (e.month = M)) =
      (keepFor minDays (obsInMonth M obs)).length *
        ((keepFor minDays (obsInMonth M obs)).length - 1) := by
  unfold monthlyCorr
  rw [countP_month_flatMap (obsMonths obs) (obsMonths_nodup obs) M
    (mem_obsMonths_of_keep hk)]
  exact monthEdges_length_of_defined hk hdef

theorem monthlyCorr_edge_count_witness :
    WellFormedObs exOverlap ∧
      2 ≤ (keepFor 10 (obsInMonth ⟨2024, 1, 1⟩ exOverlap)).length ∧
      (monthlyCorr 10 exOverlap).countP
          (fun e => decide (e.month = (⟨2024, 1, 1⟩ : Date))) =
        (keepFor 10 (obsInMonth ⟨2024, 1, 1⟩ exOverlap)).length *
          ((keepFor 10 (obsInMonth ⟨2024, 1, 1⟩ exOverlap)).length - 1) := by
  have hw : WellFormedObs exOverlap := by decide
  have hkeep : keepFor 10 (obsInMonth ⟨2024, 1, 1⟩ exOverlap) = ["A", "B"] := by
    decide
  have hAB : corrEntry (obsInMonth ⟨2024, 1, 1⟩ exOverlap) "A" "B" =
      some (1650, 2722500) := by
    with_unfolding_all rfl
  have hBA : corrEntry (obsInMonth ⟨2024, 1, 1⟩ exOverlap) "B" "A" =
      some (1650, 2722500) := by
    with_unfolding_all rfl
  have hk : 2 ≤ (keepFor 10 (obsInMonth ⟨2024, 1, 1⟩ exOverlap)).length := by
    rw [hkeep]
    decide
  have hdef : ∀ i ∈ keepFor 10 (obsInMonth ⟨2024, 1, 1⟩ exOverlap),
      ∀ j ∈ keepFor 10 (obsInMonth ⟨2024, 1, 1⟩ exOverlap), i ≠ j →
        (corrEntry (obsInMonth ⟨2024, 1, 1⟩ exOverlap) i j).isSome = true := by
    intro i hi j hj hne
    rw [hkeep] at hi hj
    rcases List.mem_cons.mp hi with rfl | hi2
    · rcases List.mem_cons.mp hj with rfl | hj2
      · exact absurd rfl hne
      · rw [List.mem_singleton] at hj2
        subst hj2
        rw [hAB]
        rfl
    · rw [List.mem_singleton] at hi2
      subst hi2
      rcases List.mem_cons.mp hj with rfl | hj2
      · rw [hBA]
        rfl
      · rw [List.mem_singleton] at hj2
        subst hj2
        exact absurd rfl hne
  exact ⟨hw, hk, monthlyCorr_edge_count 10 exOverlap ⟨2024, 1, 1⟩ hw hk hdef⟩

/-- C4: in the Network Metrics Builder's month graph, an undirected edge
{a, b} exists iff some input row for that month, in either direction,
carries a present correlation with |corr| ≥ the threshold; absent
correlations never form edges, and re-adding an existing undirected edge
leaves the graph unchanged, so duplicate rows collapse. -/
theorem graphFor_edge_iff :
    (∀ (theta : ℚ) (m : Date) (rows : List NEdge) (a b : String),
      hasEdgeB (graphFor theta m rows) a b = true ↔
        ∃ e ∈ rows, e.month = m ∧ (∃ c, e.corr = some c ∧ theta ≤ |c|) ∧
          ((e.asset_i = a ∧ e.asset_j = b) ∨ (e.asset_i = b ∧ e.asset_j = a))) ∧
      ∀ (g : Graph) (u v : String), hasEdgeB g u v = true →
        u ∈ g.nodes → v ∈ g.nodes → addEdge g u v = g := by
  constructor
  · intro theta m rows a b
    unfold graphFor
    rw [hasEdgeB_buildGraph]
    constructor
    · rintro ⟨e, he, hor⟩
      obtain ⟨he2, hm, hc⟩ := mem_survFor.mp he
      exact ⟨e, he2, hm, hc, hor⟩
    · rintro ⟨e, he, hm, hc, hor⟩
      exact ⟨e, mem_survFor.mpr ⟨he, hm, hc⟩, hor⟩
  · intro g u v he hu hv
    have h1 : addNode g u = g := by
      unfold addNode
      rw [if_pos hu]
    have h2 : addNode (addNode g u) v = g := by
      rw [h1]
      unfold addNode
      rw [if_pos hv]
    simp only [addEdge, h2, he, if_true]

theorem graphFor_edge_iff_witness :
    hasEdgeB (graphFor (1/2) ⟨2024, 1, 1⟩ exNEdges) "A" "B" = true := by
  refine (graphFor_edge_iff.1 (1/2) ⟨2024, 1, 1⟩ exNEdges "A" "B").mpr ?_
  refine ⟨⟨⟨2024, 1, 1⟩, "A", "B", some (9/10)⟩, ?_, rfl,
    ⟨9/10, rfl, ?_⟩, Or.inl ⟨rfl, rfl⟩⟩
  · unfold exNEdges
    exact List.mem_cons_self _ _
  · rw [abs_of_nonneg (by norm_num : (0:ℚ) ≤ 9/10)]
    norm_num

/-- Concrete evaluation of the Network Metrics Builder on `exNEdges` for
January 2024: two nodes, one edge, density 1, average degree 1, maximum
degree 1, average clustering 0, largest component of size 2. -/
theorem exNEdges_metricsFor :
    metricsFor (1/2) ⟨2024, 1, 1⟩ exNEdges =
      some ⟨⟨2024, 1, 1⟩, 2, 1, 1, 1, 1, 0, 2⟩ := by
  with_unfolding_all rfl

/-- C5: every emitted metrics row reports density 2·E/(n·(n−1)) when
n_assets ≥ 2 and 0 when n_assets < 2; the n < 2 case is special-cased by
`nx.density`, so no division by zero occurs. -/
theorem metricsFor_density (theta : ℚ) (m : Date) (rows : List NEdge)
    (row : MetricsRow) (h : metricsFor theta m rows = some row) :
    row.density = if row.n_assets < 2 then 0
      else 2 * (row.n_edges : ℚ) /
        ((row.n_assets : ℚ) * ((row.n_assets : ℚ) - 1)) := by
  obtain ⟨hs, rfl⟩ := metricsFor_some_form h
  exact densityFn_cases (graphFor theta m rows)

theorem metricsFor_density_witness :
    (1 : ℚ) = if 2 < 2 then 0
      else 2 * ((1 : Nat) : ℚ) / (((2 : Nat) : ℚ) * (((2 : Nat) : ℚ) - 1)) :=
  metricsFor_density (1/2) ⟨2024, 1, 1⟩ exNEdges
    ⟨⟨2024, 1, 1⟩, 2, 1, 1, 1, 1, 0, 2⟩ exNEdges_metricsFor

/-- C6: the Network Metrics Builder emits exactly one row per month with
at least one edge surviving the threshold, the result is sorted ascending
by month, and if no month survives the result is empty rather than an
error. -/
theorem networkMetrics_shape (theta : ℚ) (rows : List NEdge) :
    (networkMetrics theta rows).Pairwise
        (fun a b => dateLe a.month b.month = true) ∧
      (∀ M : Date, (networkMetrics theta rows).countP
          (fun r => decide (r.month = M)) =
        if survFor theta M rows = [] then 0 else 1) ∧
      ((∀ m : Date, survFor theta m rows = []) → networkMetrics theta rows = []) :=
  ⟨networkMetrics_sorted theta rows, fun _ => countP_networkMetrics,
    networkMetrics_nil_of_no_surv⟩

theorem networkMetrics_shape_witness :
    (networkMetrics (1/2) exNEdges).countP
      (fun r => decide (r.month = (⟨2024, 1, 1⟩ : Date))) = 1 := by
  rw [(networkMetrics_shape (1/2) exNEdges).2.1 ⟨2024, 1, 1⟩]
  have he : survFor (1/2) (⟨2024, 1, 1⟩ : Date) exNEdges =
      [⟨⟨2024, 1, 1⟩, "A", "B", some (9/10)⟩,
        ⟨⟨2024, 1, 1⟩, "B", "A", some (9/10)⟩] := by
    with_unfolding_all rfl
  rw [if_neg (by rw [he]; exact List.cons_ne_nil _ _)]

/-- C7: every emitted metrics row has a positive lcc_size, lcc_size ≤
n_assets, and lcc_size = n_assets exactly when the month's graph is
connected. -/
theorem metricsFor_lcc (theta : ℚ) (m : Date) (rows : List NEdge)
    (row : MetricsRow) (h : metricsFor theta m rows = some row) :
    1 ≤ row.lcc_size ∧ row.lcc_size ≤ row.n_assets ∧
      (row.lcc_size = row.n_assets ↔ ConnectedG (graphFor theta m rows)) := by
  obtain ⟨hs, rfl⟩ := metricsFor_some_form h
  have hg := gInv_buildGraph (survFor theta m rows)
  have hne : (graphFor theta m rows).nodes ≠ [] := buildGraph_nodes_ne_nil hs
  exact ⟨lccSize_pos hne, lccSize_le _, lccSize_eq_iff_connected hg hne⟩

theorem metricsFor_lcc_witness :
    1 ≤ (2 : Nat) ∧ (2 : Nat) ≤ (2 : Nat) ∧
      ((2 : Nat) = (2 : Nat) ↔ ConnectedG (graphFor (1/2) ⟨2024, 1, 1⟩ exNEdges)) :=
  metricsFor_lcc (1/2) ⟨2024, 1, 1⟩ exNEdges
    ⟨⟨2024, 1, 1⟩, 2, 1, 1, 1, 1, 0, 2⟩ exNEdges_metricsFor

/-- C8: every emitted avg_clustering equals the arithmetic mean over all
nodes of the unweighted local clustering coefficient — the fraction of
pairs of distinct neighbours that are themselves connected, with nodes of
degree < 2 contributing 0 — and consequently lies in [0, 1]. -/
theorem metricsFor_avg_clustering (theta : ℚ) (m : Date) (rows : List NEdge)
    (row : MetricsRow) (h : metricsFor theta m rows = some row) :
    row.avg_clustering =
        (((graphFor theta m rows).nodes.map
          (clusteringSpec (graphFor theta m rows))).sum) /
          ((graphFor theta m rows).nodes.length : ℚ) ∧
      0 ≤ row.avg_clustering ∧ row.avg_clustering ≤ 1 := by
  obtain ⟨hs, rfl⟩ := metricsFor_some_form h
  have hg := gInv_buildGraph (survFor theta m rows)
  have hne : (graphFor theta m rows).nodes ≠ [] := buildGraph_nodes_ne_nil hs
  exact ⟨avgClustering_eq_spec hg.1 (fun h0 => hne (List.length_eq_zero.mp h0)),
    (avgClustering_mem_unit hg.1).1, (avgClustering_mem_unit hg.1).2⟩

theorem metricsFor_avg_clustering_witness :
    (0 : ℚ) = (((graphFor (1/2) ⟨2024, 1, 1⟩ exNEdges).nodes.map
        (clusteringSpec (graphFor (1/2) ⟨2024, 1, 1⟩ exNEdges))).sum) /
        (((graphFor (1/2) ⟨2024, 1, 1⟩ exNEdges).nodes.length : ℚ)) ∧
      0 ≤ (0 : ℚ) ∧ (0 : ℚ) ≤ 1 :=
  metricsFor_avg_clustering (1/2) ⟨2024, 1, 1⟩ exNEdges
    ⟨⟨2024, 1, 1⟩, 2, 1, 1, 1, 1, 0, 2⟩ exNEdges_metricsFor

/-- C10: when every input row has distinct endpoints (as the Correlation
Builder guarantees for its output), every emitted metrics row has
n_assets ≥ 2, n_edges ≥ 1, max_degree ≥ 1 and lcc_size ≥ 2, strictly
stronger than the spec's n_assets ≥ 1. -/
theorem metricsFor_nontrivial (theta : ℚ) (m : Date) (rows : List NEdge)
    (hdist : ∀ e ∈ rows, e.asset_i ≠ e.asset_j)
    (row : MetricsRow) (h : metricsFor theta m rows = some row) :
    2 ≤ row.n_assets ∧ 1 ≤ row.n_edges ∧ 1 ≤ row.max_degree ∧ 2 ≤ row.lcc_size := by
  obtain ⟨hs, rfl⟩ := metricsFor_some_form h
  obtain ⟨e0, he0⟩ := List.exists_mem_of_ne_nil _ hs
  have hg := gInv_buildGraph (survFor theta m rows)
  have hedge : hasEdgeB (graphFor theta m rows) e0.asset_i e0.asset_j = true := by
    unfold graphFor
    exact hasEdgeB_buildGraph.mpr ⟨e0, he0, Or.inl ⟨rfl, rfl⟩⟩
  have hne : e0.asset_i ≠ e0.asset_j := hdist e0 (mem_survFor.mp he0).1
  have hnodes := hg.2 _ _ hedge
  refine ⟨two_le_length_of_mem hnodes.1 hnodes.2 hne, ?_, ?_, ?_⟩
  · obtain ⟨e, he, -⟩ := hasEdgeB_iff.mp hedge
    exact List.length_pos_of_mem he
  · obtain ⟨⟨u, w⟩, hew, hor⟩ := hasEdgeB_iff.mp hedge
    have hdeg : 1 ≤ degree (graphFor theta m rows) e0.asset_i := by
      rcases hor with ⟨hu, hw⟩ | ⟨hu, hw⟩
      · exact degree_pos_of_mem hew (Or.inl hu)
      · exact degree_pos_of_mem hew (Or.inr hw)
    exact one_le_maxDegree hnodes.1 hdeg
  · have hreach : Reach (graphFor theta m rows) e0.asset_i e0.asset_j :=
      Relation.ReflTransGen.single hedge
    have hj : e0.asset_j ∈ compo (graphFor theta m rows) e0.asset_i :=
      mem_compo_of_reach hg hnodes.1 hreach
    have hi := mem_compo_self (g := graphFor theta m rows) e0.asset_i
    have h2 : 2 ≤ (compo (graphFor theta m rows) e0.asset_i).length :=
      two_le_length_of_mem hi hj hne
    show 2 ≤ lccSize (graphFor theta m rows)
    unfold lccSize
    exact le_trans h2 (le_foldr_max (List.mem_map.mpr ⟨e0.asset_i, hnodes.1, rfl⟩))

theorem metricsFor_nontrivial_witness :
    (∀ e ∈ exNEdges, e.asset_i ≠ e.asset_j) ∧
      2 ≤ (2 : Nat) ∧ 1 ≤ (1 : Nat) ∧ 1 ≤ (1 : Nat) ∧ 2 ≤ (2 : Nat) := by
  have hd : ∀ e ∈ exNEdges, e.asset_i ≠ e.asset_j := by decide
  exact ⟨hd, metricsFor_nontrivial (1/2) ⟨2024, 1, 1⟩ exNEdges hd
    ⟨⟨2024, 1, 1⟩, 2, 1, 1, 1, 1, 0, 2⟩ exNEdges_metricsFor⟩

end CryptoSql
